import Mathlib

/-
Verification of the VF2 isomorphism-matching engine of this repository
(the networkx `algorithms.isomorphism` engine), against its design
specification.  The engine itself (search state, candidate generation,
feasibility rules, backtracking driver and result surface) is shallowly
embedded below as executable Lean functions; the test suite
`algorithms/isomorphism/tests/test_isomorphvf2.py` supplies the concrete
scenarios (the Wikipedia cube example, multigraph and self-loop graphs).
-/

set_option maxRecDepth 4096

/-- Modelled from the spec: the graph capability contract (section 6).
The engine sees a graph as a node enumeration plus an arc list; `directed`
selects directed semantics.  For an undirected graph an arc may be stored
in either orientation; multiplicity of parallel edges is the arc count.
(The graph container itself is an external collaborator, out of scope.) -/
structure Graph where
  directed : Bool
  nodes : List Nat
  arcs : List (Nat × Nat)
deriving DecidableEq, Repr

/-- Well-formed graph view: distinct node identifiers, arcs between nodes. -/
def GraphWF (g : Graph) : Prop :=
  g.nodes.Nodup ∧ ∀ a ∈ g.arcs, a.1 ∈ g.nodes ∧ a.2 ∈ g.nodes

instance (g : Graph) : Decidable (GraphWF g) := by
  unfold GraphWF; infer_instance

/-- Modelled from the spec: edge multiplicity query (sections 3 and 6).
For a directed graph, the number of parallel arcs u→v; for an undirected
graph, the number of parallel edges between u and v (a self-loop counted
once). -/
def Graph.mult (g : Graph) (u v : Nat) : Nat :=
  if g.directed then g.arcs.count (u, v)
  else if u = v then g.arcs.count (u, u)
  else g.arcs.count (u, v) + g.arcs.count (v, u)

/-- Out-adjacency: at least one edge u→v (both directions for undirected). -/
def Graph.adj (g : Graph) (u v : Nat) : Bool :=
  decide (0 < g.mult u v)

/-- Modelled from the spec: successor enumeration (neighbors, undirected). -/
def Graph.succList (g : Graph) (u : Nat) : List Nat :=
  g.nodes.filter (fun v => g.adj u v)

/-- Modelled from the spec: predecessor enumeration (neighbors, undirected). -/
def Graph.predList (g : Graph) (u : Nat) : List Nat :=
  g.nodes.filter (fun v => g.adj v u)

/-- Modelled from the spec: per-node degree, for the pre-search
degree-sequence filter (sections 4.4 and 6): total multiplicity of edges
leaving the node. -/
def Graph.deg (g : Graph) (u : Nat) : Nat :=
  (g.nodes.map (fun v => g.mult u v)).sum

/-- Modelled from the spec: the match mode fixed for a search (section 3):
full isomorphism, non-induced subgraph isomorphism, or induced subgraph
isomorphism.  Graph₂ is the pattern/smaller graph in subgraph mode. -/
inductive MatchMode where
  | full
  | subNonInduced
  | subInduced
deriving DecidableEq, Repr

/-- The partial mapping of the matching state: (Graph₁ node, Graph₂ node)
pairs, most recently pushed first. -/
abbrev PairList := List (Nat × Nat)

/-- Is u already mapped on the Graph₁ side? -/
def mapped1 (m : PairList) (u : Nat) : Bool :=
  (m.map Prod.fst).contains u

/-- Is v already mapped on the Graph₂ side? -/
def mapped2 (m : PairList) (v : Nat) : Bool :=
  (m.map Prod.snd).contains v

/-- Modelled from the spec: terminal-out membership (section 3) — an
unmapped node out-adjacent to at least one mapped node; `ms` is the list
of mapped nodes of the same graph side. -/
def inTermOut (g : Graph) (ms : List Nat) (v : Nat) : Bool :=
  !(ms.contains v) && ms.any (fun u => g.adj u v)

/-- Modelled from the spec: terminal-in membership (section 3). -/
def inTermIn (g : Graph) (ms : List Nat) (v : Nat) : Bool :=
  !(ms.contains v) && ms.any (fun u => g.adj v u)

/-- The terminal-out (frontier) set of a graph side, as a node list. -/
def frontierOut (g : Graph) (ms : List Nat) : List Nat :=
  g.nodes.filter (inTermOut g ms)

/-- The terminal-in (frontier) set of a graph side, as a node list. -/
def frontierIn (g : Graph) (ms : List Nat) : List Nat :=
  g.nodes.filter (inTermIn g ms)

/-- The unmapped nodes of a graph side. -/
def unmappedList (g : Graph) (ms : List Nat) : List Nat :=
  g.nodes.filter (fun v => !(ms.contains v))

/-- Smallest element of a node list (the candidate tie-break rule picks
the smallest identifier). -/
def listMin : List Nat → Option Nat
  | [] => none
  | x :: xs =>
    match listMin xs with
    | none => some x
    | some y => some (if x ≤ y then x else y)

/-- Modelled from the spec: the candidate generator (section 4.2).  Pick
the smallest-identifier Graph₂ terminal-out node (else terminal-in) and
pair it with every Graph₁ terminal node of the same kind; when every
terminal set is empty, fall back to pairing the smallest unmapped Graph₂
node with all unmapped Graph₁ nodes (needed for disconnected inputs). -/
def candidatePairs (g1 g2 : Graph) (m : PairList) : PairList :=
  let m1 := m.map Prod.fst
  let m2 := m.map Prod.snd
  match listMin (frontierOut g2 m2) with
  | some t2 => (frontierOut g1 m1).map (fun n1 => (n1, t2))
  | none =>
    match listMin (frontierIn g2 m2) with
    | some t2 => (frontierIn g1 m1).map (fun n1 => (n1, t2))
    | none =>
      if (frontierOut g1 m1).isEmpty && (frontierIn g1 m1).isEmpty then
        match listMin (unmappedList g2 m2) with
        | some t2 => (unmappedList g1 m1).map (fun n1 => (n1, t2))
        | none => []
      else []

/-- Modelled from the spec: the per-edge multiplicity policy of the
feasibility checker (section 4.3 rules 2 and 3).  `hm` is the host
(Graph₁) multiplicity, `pm` the pattern (Graph₂) multiplicity: equal for
full isomorphism, pattern ≤ host for non-induced subgraph mode, and for
induced mode additionally host adjacency implies pattern adjacency. -/
def multOk (mode : MatchMode) (hm pm : Nat) : Bool :=
  match mode with
  | .full => decide (hm = pm)
  | .subNonInduced => decide (pm ≤ hm)
  | .subInduced => decide (pm ≤ hm) && (decide (hm = 0) || decide (0 < pm))

/-- Modelled from the spec: the look-back rule (section 4.3 rule 2, with
the multiplicity rule 3 folded into the multiplicity policy): every
already-mapped pair must relate to the candidate pair with compatible
adjacency in both directions. -/
def lookBack (g1 g2 : Graph) (mode : MatchMode) (m : PairList) (n1 n2 : Nat) : Bool :=
  m.all (fun p =>
    multOk mode (g1.mult p.1 n1) (g2.mult p.2 n2) &&
    multOk mode (g1.mult n1 p.1) (g2.mult n2 p.2))

/-- Modelled from the spec: self-loop fidelity (section 4.3 rule 3):
self-loop multiplicity on n1 against self-loop multiplicity on n2, under
the mode's policy. -/
def selfLoopOk (g1 g2 : Graph) (mode : MatchMode) (n1 n2 : Nat) : Bool :=
  multOk mode (g1.mult n1 n1) (g2.mult n2 n2)

/-- A node unmapped and outside every terminal set (not yet reachable
from the mapped region). -/
def outsideTerm (g : Graph) (ms : List Nat) (v : Nat) : Bool :=
  !(ms.contains v) && !(inTermOut g ms v) && !(inTermIn g ms v)

/-- Count of list elements satisfying a predicate. -/
def cnt (l : List Nat) (p : Nat → Bool) : Nat :=
  (l.filter p).length

/-- Look-ahead count policy: equal for full isomorphism, pattern-side
count ≤ host-side count for subgraph modes (section 4.3 rule 4). -/
def cmpCount (mode : MatchMode) (hc pc : Nat) : Bool :=
  match mode with
  | .full => decide (hc = pc)
  | _ => decide (pc ≤ hc)

/-- Modelled from the spec: the 1-level and 2-level look-ahead pruning
rules (section 4.3 rule 4): counts of the candidate nodes' unmapped
neighbors lying in the terminal-out/in sets, successor and predecessor
directions checked independently (section 9), and of unmapped neighbors
outside any terminal set. -/
def lookAhead (g1 g2 : Graph) (mode : MatchMode) (m : PairList) (n1 n2 : Nat) : Bool :=
  let m1 := m.map Prod.fst
  let m2 := m.map Prod.snd
  cmpCount mode (cnt (g1.succList n1) (inTermOut g1 m1)) (cnt (g2.succList n2) (inTermOut g2 m2)) &&
  cmpCount mode (cnt (g1.succList n1) (inTermIn g1 m1)) (cnt (g2.succList n2) (inTermIn g2 m2)) &&
  cmpCount mode (cnt (g1.predList n1) (inTermOut g1 m1)) (cnt (g2.predList n2) (inTermOut g2 m2)) &&
  cmpCount mode (cnt (g1.predList n1) (inTermIn g1 m1)) (cnt (g2.predList n2) (inTermIn g2 m2)) &&
  cmpCount mode (cnt (g1.succList n1) (outsideTerm g1 m1)) (cnt (g2.succList n2) (outsideTerm g2 m2)) &&
  cmpCount mode (cnt (g1.predList n1) (outsideTerm g1 m1)) (cnt (g2.predList n2) (outsideTerm g2 m2))

/-- Modelled from the spec: the feasibility checker (section 4.3), a
conjunction of the self-loop, look-back and look-ahead rules evaluated on
a candidate pair against the current state. -/
def feasible (g1 g2 : Graph) (mode : MatchMode) (m : PairList) (n1 n2 : Nat) : Bool :=
  selfLoopOk g1 g2 mode n1 n2 && lookBack g1 g2 mode m n1 n2 &&
    lookAhead g1 g2 mode m n1 n2

/-- Modelled from the spec: `is_complete` (section 4.1) — every node of
the smaller graph (Graph₂) is mapped. -/
def isComplete (g2 : Graph) (m : PairList) : Bool :=
  g2.nodes.all (fun v => mapped2 m v)

/-- Modelled from the spec: the recursive backtracking search driver
(section 4.4), as a fuel-indexed function on the partial mapping.  At a
complete state the mapping (in push order) is yielded; otherwise every
feasible candidate pair is pushed and the subtree searched, candidates in
generation order, producing the full match sequence. -/
def searchFrom (g1 g2 : Graph) (mode : MatchMode) : Nat → PairList → List PairList
  | 0, m => if isComplete g2 m then [m.reverse] else []
  | fuel + 1, m =>
    if isComplete g2 m then [m.reverse]
    else
      (candidatePairs g1 g2 m).flatMap (fun p =>
        if feasible g1 g2 mode m p.1 p.2 then
          searchFrom g1 g2 mode fuel (p :: m)
        else [])

/-- Insert into a sorted list of naturals. -/
def insertSorted (x : Nat) : List Nat → List Nat
  | [] => [x]
  | y :: ys => if x ≤ y then x :: y :: ys else y :: insertSorted x ys

/-- Insertion sort on naturals, for the degree-sequence filter. -/
def sortNat : List Nat → List Nat
  | [] => []
  | x :: xs => insertSorted x (sortNat xs)

/-- Modelled from the spec: the sorted degree sequence of a graph, used
by the pre-search filter (section 4.4). -/
def sortedDegreeSeq (g : Graph) : List Nat :=
  sortNat (g.nodes.map (fun u => g.deg u))

/-- Modelled from the spec: the trivial rejections applied before search
starts (section 4.4): full mode requires equal node counts and equal
sorted degree sequences; subgraph modes require pattern count ≤ host
count. -/
def prefilterOk (g1 g2 : Graph) (mode : MatchMode) : Bool :=
  match mode with
  | .full =>
    decide (g1.nodes.length = g2.nodes.length) &&
      decide (sortedDegreeSeq g1 = sortedDegreeSeq g2)
  | _ => decide (g2.nodes.length ≤ g1.nodes.length)

/-- Modelled from the spec: `enumerate_mappings` (section 6) — the lazy
(here: fully materialized, the sequence is finite) ordered sequence of
complete mappings, empty when the pre-filter rejects. -/
def enumerateMappings (g1 g2 : Graph) (mode : MatchMode) : List PairList :=
  if prefilterOk g1 g2 mode then searchFrom g1 g2 mode g2.nodes.length []
  else []

/-- Modelled from the spec: `find_mapping` (section 6) — first match or
none. -/
def findMapping (g1 g2 : Graph) (mode : MatchMode) : Option PairList :=
  (enumerateMappings g1 g2 mode).head?

/-- Modelled from the spec: `is_isomorphic` (section 6). -/
def isIsomorphic (g1 g2 : Graph) : Bool :=
  !(enumerateMappings g1 g2 .full).isEmpty

/-- Modelled from the spec: `is_subgraph_isomorphic(host, pattern,
induced)` (section 6). -/
def isSubgraphIsomorphic (host pat : Graph) (induced : Bool) : Bool :=
  !(enumerateMappings host pat
      (if induced then .subInduced else .subNonInduced)).isEmpty

/-- Modelled from the spec: the number of feasibility-checker invocations
a search performs (the instrumentation hook of section 8); zero when the
pre-filter rejects before the search is launched. -/
def searchCount (g1 g2 : Graph) (mode : MatchMode) : Nat → PairList → Nat
  | 0, _ => 0
  | fuel + 1, m =>
    if isComplete g2 m then 0
    else
      ((candidatePairs g1 g2 m).map (fun p =>
        1 + (if feasible g1 g2 mode m p.1 p.2 then
               searchCount g1 g2 mode fuel (p :: m)
             else 0))).sum

/-- Feasibility-check count of a whole query (pre-filter included). -/
def feasibilityChecks (g1 g2 : Graph) (mode : MatchMode) : Nat :=
  if prefilterOk g1 g2 mode then searchCount g1 g2 mode g2.nodes.length []
  else 0

/-- First-component association lookup in a pair list (0 when absent). -/
def assoc1 (m : PairList) (u : Nat) : Nat :=
  match m.find? (fun p => p.1 == u) with
  | some p => p.2
  | none => 0

/-- Following the spec's words (section 8, completeness property): the
adjacency-preservation check of a candidate bijection given as a pair
list, replayed over every node pair, multiplicity included.  Stated from
the spec, as the reference side of the refinement claim. -/
def isoCheck (g1 g2 : Graph) (a : PairList) : Bool :=
  g1.nodes.all (fun u => g1.nodes.all (fun v =>
    decide (g1.mult u v = g2.mult (assoc1 a u) (assoc1 a v))))

/-- Following the spec's words (section 8, completeness property):
exhaustive brute-force search over all node permutations for an
adjacency-preserving bijection. -/
def bruteForceIso (g1 g2 : Graph) : Bool :=
  decide (g1.nodes.length = g2.nodes.length) &&
    g2.nodes.permutations.any (fun p => isoCheck g1 g2 (g1.nodes.zip p))

/-- A graph with every node identifier renamed by r (the relabeling of
the atlas/multigraph/self-loop test scenarios). -/
def renameGraph (g : Graph) (r : Nat → Nat) : Graph :=
  ⟨g.directed, g.nodes.map r, g.arcs.map (fun a => (r a.1, r a.2))⟩

/-- Modelled from the spec: the full matching-state record (section 3):
both mapping directions, the four depth-tagged terminal sets (node paired
with the depth at which it entered the frontier), and the search depth. -/
structure MState where
  core1 : PairList
  core2 : PairList
  t1out : PairList
  t1in : PairList
  t2out : PairList
  t2in : PairList
  depth : Nat
deriving DecidableEq, Repr

/-- Is a node present in a depth-tagged terminal set? -/
def inTagged (t : PairList) (v : Nat) : Bool :=
  t.any (fun e => e.1 == v)

/-- Add candidate frontier nodes to a depth-tagged terminal set, tagging
entries not already frontier members (only those) with the given depth. -/
def addFrontierEntries (cand : List Nat) (d : Nat) (t : PairList) : PairList :=
  ((cand.filter (fun v => !(inTagged t v))).map (fun v => (v, d))) ++ t

/-- Modelled from the spec: `push` (section 4.1): record the pair in both
mapping directions, increment depth, and add every unmapped neighbor of
n1 and n2 that is not already a frontier member to the terminal sets,
tagged with the new depth. -/
def MState.push (g1 g2 : Graph) (s : MState) (n1 n2 : Nat) : MState :=
  let d := s.depth + 1
  let core1' := (n1, n2) :: s.core1
  let core2' := (n2, n1) :: s.core2
  let unm1 : Nat → Bool := fun v => !((core1'.map Prod.fst).contains v)
  let unm2 : Nat → Bool := fun v => !((core2'.map Prod.fst).contains v)
  { core1 := core1'
    core2 := core2'
    t1out := addFrontierEntries ((g1.succList n1).filter unm1) d s.t1out
    t1in := addFrontierEntries ((g1.predList n1).filter unm1) d s.t1in
    t2out := addFrontierEntries ((g2.succList n2).filter unm2) d s.t2out
    t2in := addFrontierEntries ((g2.predList n2).filter unm2) d s.t2in
    depth := d }

/-- Drop every terminal-set entry tagged with the given depth. -/
def dropDepth (t : PairList) (d : Nat) : PairList :=
  t.filter (fun e => !(e.2 == d))

/-- Modelled from the spec: `pop` (section 4.1), requiring depth > 0:
remove the most recently added pair from both directions, decrement
depth, and drop the terminal-set entries tagged with the vacated depth
(entries that entered at an earlier depth keep their tags and stay). -/
def MState.pop (s : MState) : MState :=
  if s.depth = 0 then s
  else
    { core1 := s.core1.tail
      core2 := s.core2.tail
      t1out := dropDepth s.t1out s.depth
      t1in := dropDepth s.t1in s.depth
      t2out := dropDepth s.t2out s.depth
      t2in := dropDepth s.t2in s.depth
      depth := s.depth - 1 }

/-- All terminal-set tags of a state are at most its depth (part of the
state invariant: an entry is tagged with the depth at which it entered
the frontier, never a future depth). -/
def TagsBounded (s : MState) : Prop :=
  (∀ e ∈ s.t1out, e.2 ≤ s.depth) ∧ (∀ e ∈ s.t1in, e.2 ≤ s.depth) ∧
  (∀ e ∈ s.t2out, e.2 ≤ s.depth) ∧ (∀ e ∈ s.t2in, e.2 ≤ s.depth)

instance (s : MState) : Decidable (TagsBounded s) := by
  unfold TagsBounded; infer_instance

/-- A node of a state's mapping is unmapped when it appears in neither
direction (the `push` precondition of section 4.1). -/
def UnmappedIn (s : MState) (n1 n2 : Nat) : Prop :=
  mapped1 s.core1 n1 = false ∧ mapped2 s.core1 n2 = false

instance (s : MState) (n1 n2 : Nat) : Decidable (UnmappedIn s n1 n2) := by
  unfold UnmappedIn; infer_instance

/-- Modelled from the spec: the configuration errors rejected at matcher
construction (section 7). -/
inductive ConfigError where
  | directedMismatch
  | patternTooLarge
deriving DecidableEq, Repr

/-- A constructed matcher: the two graph views and the fixed mode. -/
structure Matcher where
  g1 : Graph
  g2 : Graph
  mode : MatchMode
deriving DecidableEq, Repr

/-- Modelled from the spec: matcher construction (section 7): requesting
directed matching semantics against an undirected graph capability, or a
subgraph search whose pattern has more nodes than its host, is rejected
immediately as a configuration error; otherwise the matcher is built. -/
def mkMatcher (g1 g2 : Graph) (mode : MatchMode) (wantDirected : Bool) :
    Except ConfigError Matcher :=
  if wantDirected && (!g1.directed || !g2.directed) then
    Except.error ConfigError.directedMismatch
  else if decide (mode ≠ MatchMode.full) &&
      decide (g1.nodes.length < g2.nodes.length) then
    Except.error ConfigError.patternTooLarge
  else Except.ok ⟨g1, g2, mode⟩

/-- Modelled from the spec: running a constructed matcher produces the
(finite) match sequence; exhaustion is the empty sequence, never an
error. -/
def Matcher.run (M : Matcher) : List PairList :=
  enumerateMappings M.g1 M.g2 M.mode

/-- Modelled from the spec and the test suite: the boolean existence
query on a matcher also records the witnessing mapping (the `mapping`
attribute the tests observe after `is_isomorphic` and
`subgraph_is_isomorphic`) — the first match when one exists. -/
def matcherQuery (g1 g2 : Graph) (mode : MatchMode) : Bool × PairList :=
  match findMapping g1 g2 mode with
  | some mp => (true, mp)
  | none => (false, [])

/-- The sub-host induced by a node subset (the tests build pattern hosts
this way). -/
def subgraphOn (g : Graph) (s : List Nat) : Graph :=
  ⟨g.directed, g.nodes.filter (fun v => s.contains v),
   g.arcs.filter (fun a => s.contains a.1 && s.contains a.2)⟩

/-- The 8-node cube host of the Wikipedia example test: two 4-cycles
(1-2-3-4 and 5-6-7-8) joined by a perfect matching. -/
def cubeG : Graph :=
  ⟨false, [1, 2, 3, 4, 5, 6, 7, 8],
   [(1, 2), (2, 3), (3, 4), (4, 1), (5, 6), (6, 7), (7, 8), (8, 5),
    (1, 5), (2, 6), (3, 7), (4, 8)]⟩

/-- A 4-cycle pattern (the cube's outer square, as in the subgraph
test). -/
def c4pat : Graph := ⟨false, [1, 2, 3, 4], [(1, 2), (2, 3), (3, 4), (4, 1)]⟩

/-- The sub-host consisting of two opposite corners of the cube (nodes 1
and 7 are antipodal), where no 4-cycle exists. -/
def cornersG : Graph := subgraphOn cubeG [1, 7]

/-- A double (multiplicity-2) edge. -/
def dblE : Graph := ⟨false, [0, 1], [(0, 1), (0, 1)]⟩

/-- A single (multiplicity-1) edge on the same nodes. -/
def sglE : Graph := ⟨false, [0, 1], [(0, 1)]⟩

/-- Two disjoint double edges: degree sequence [2, 2, 2, 2]. -/
def ddG : Graph := ⟨false, [0, 1, 2, 3], [(0, 1), (0, 1), (2, 3), (2, 3)]⟩

/-- A 4-cycle: same degree sequence [2, 2, 2, 2], but no double edge. -/
def c4G : Graph := ⟨false, [0, 1, 2, 3], [(0, 1), (1, 2), (2, 3), (3, 0)]⟩

/-- A single isolated node. -/
def oneG : Graph := ⟨false, [0], []⟩

/-- A complete adjacency-preserving pairing between two graphs, given as
a list of (Graph₁ node, Graph₂ node) pairs: both projections enumerate
the node sets, and edge multiplicities correspond on every pair of
pairs (self-loops included, via p = q). -/
def IsoPairs (g1 g2 : Graph) (F : PairList) : Prop :=
  (F.map Prod.fst).Perm g1.nodes ∧ (F.map Prod.snd).Perm g2.nodes ∧
  ∀ p ∈ F, ∀ q ∈ F, g1.mult p.1 q.1 = g2.mult p.2 q.2

/-- The search-state invariant (section 3): pairs join graph nodes, both
mapping directions are injective (exact inverses), and every pair of
mapped pairs satisfies the mode's adjacency/multiplicity policy. -/
def StateInv (g1 g2 : Graph) (mode : MatchMode) (m : PairList) : Prop :=
  (∀ p ∈ m, p.1 ∈ g1.nodes ∧ p.2 ∈ g2.nodes) ∧
  (m.map Prod.fst).Nodup ∧ (m.map Prod.snd).Nodup ∧
  ∀ p ∈ m, ∀ q ∈ m, multOk mode (g1.mult p.1 q.1) (g2.mult p.2 q.2) = true

/-- Number of still-unmapped Graph₂ nodes: the fuel measure of the
search. -/
def unmappedCount (g2 : Graph) (m : PairList) : Nat :=
  (g2.nodes.filter (fun v => !(mapped2 m v))).length

/-! ### Basic list facts used throughout the development -/

theorem containsMem (l : List Nat) (a : Nat) : l.contains a = true ↔ a ∈ l := by
  simp

theorem mapped1_iff (m : PairList) (u : Nat) :
    mapped1 m u = true ↔ ∃ p ∈ m, p.1 = u := by
  simp [mapped1]

theorem mapped2_iff (m : PairList) (v : Nat) :
    mapped2 m v = true ↔ ∃ p ∈ m, p.2 = v := by
  simp [mapped2]

theorem listMin_eq_none (l : List Nat) : listMin l = none ↔ l = [] := by
  induction l with
  | nil => simp [listMin]
  | cons x xs ih =>
    simp only [listMin]
    cases h : listMin xs <;> simp

theorem listMin_mem {l : List Nat} {a : Nat} (h : listMin l = some a) : a ∈ l := by
  induction l generalizing a with
  | nil => simp [listMin] at h
  | cons x xs ih =>
    simp only [listMin] at h
    cases hxs : listMin xs with
    | none => rw [hxs] at h; simp at h; simp [h]
    | some y =>
      rw [hxs] at h
      simp only [Option.some.injEq] at h
      subst h
      by_cases hxy : x ≤ y
      · rw [if_pos hxy]; exact List.mem_cons_self x xs
      · rw [if_neg hxy]
        exact List.mem_cons_of_mem x (ih hxs)

theorem filterMapComm {α β : Type} (f : α → β) (q : β → Bool) (l : List α) :
    (l.map f).filter q = (l.filter (fun x => q (f x))).map f := by
  induction l with
  | nil => rfl
  | cons x xs ih =>
    by_cases h : q (f x) = true
    · simp [List.filter_cons, h, ih]
    · simp only [Bool.not_eq_true] at h
      simp [List.filter_cons, h, ih]

theorem insertSorted_perm (x : Nat) (l : List Nat) :
    (insertSorted x l).Perm (x :: l) := by
  induction l with
  | nil => exact List.Perm.refl _
  | cons y ys ih =>
    by_cases h : x ≤ y
    · simp [insertSorted, h]
    · simp only [insertSorted, if_neg h]
      exact (ih.cons y).trans (List.Perm.swap x y ys)

theorem sortNat_perm (l : List Nat) : (sortNat l).Perm l := by
  induction l with
  | nil => exact List.Perm.refl _
  | cons x xs ih => exact (insertSorted_perm x (sortNat xs)).trans (ih.cons x)

theorem insertSorted_sorted {x : Nat} {l : List Nat}
    (h : List.Sorted (· ≤ ·) l) : List.Sorted (· ≤ ·) (insertSorted x l) := by
  induction l with
  | nil => simp [insertSorted]
  | cons y ys ih =>
    rcases List.sorted_cons.mp h with ⟨hy, hys⟩
    by_cases hxy : x ≤ y
    · simp only [insertSorted, if_pos hxy]
      refine List.sorted_cons.mpr ⟨?_, h⟩
      intro b hb
      rcases List.mem_cons.mp hb with h1 | h1
      · omega
      · exact Nat.le_trans hxy (hy b h1)
    · simp only [insertSorted, if_neg hxy]
      refine List.sorted_cons.mpr ⟨?_, ih hys⟩
      intro b hb
      rcases List.mem_cons.mp ((insertSorted_perm x ys).mem_iff.mp hb) with h1 | h1
      · omega
      · exact hy b h1

theorem sortNat_sorted (l : List Nat) : List.Sorted (· ≤ ·) (sortNat l) := by
  induction l with
  | nil => simp [sortNat]
  | cons x xs ih => exact insertSorted_sorted ih

theorem sortNat_eq_of_perm {l l' : List Nat} (h : l.Perm l') :
    sortNat l = sortNat l' := by
  exact List.eq_of_perm_of_sorted
    ((sortNat_perm l).trans (h.trans (sortNat_perm l').symm))
    (sortNat_sorted l) (sortNat_sorted l')

/-! ### Isomorphism pairings and transfer lemmas -/

theorem boolEq_of_iff {a b : Bool} (h : a = true ↔ b = true) : a = b := by
  cases a <;> cases b <;> simp_all

theorem andSplit {a b : Bool} (h : (a && b) = true) : a = true ∧ b = true := by
  simp_all

theorem pairEq_of_fst {F : PairList} (hnd : (F.map Prod.fst).Nodup)
    {p q : Nat × Nat} (hp : p ∈ F) (hq : q ∈ F) (h : p.1 = q.1) : p = q :=
  List.inj_on_of_nodup_map hnd hp hq h

theorem pairEq_of_snd {F : PairList} (hnd : (F.map Prod.snd).Nodup)
    {p q : Nat × Nat} (hp : p ∈ F) (hq : q ∈ F) (h : p.2 = q.2) : p = q :=
  List.inj_on_of_nodup_map hnd hp hq h

theorem transferCount {g1 g2 : Graph} {F : PairList}
    (hp1 : (F.map Prod.fst).Perm g1.nodes) (hp2 : (F.map Prod.snd).Perm g2.nodes)
    {q1 q2 : Nat → Bool} (hq : ∀ p ∈ F, q1 p.1 = q2 p.2) :
    (g1.nodes.filter q1).length = (g2.nodes.filter q2).length := by
  have e1 : (g1.nodes.filter q1).length = ((F.map Prod.fst).filter q1).length :=
    ((List.Perm.filter q1 hp1).length_eq).symm
  have e2 : (g2.nodes.filter q2).length = ((F.map Prod.snd).filter q2).length :=
    ((List.Perm.filter q2 hp2).length_eq).symm
  rw [e1, e2, filterMapComm, filterMapComm, List.length_map, List.length_map]
  congr 1
  exact List.filter_congr hq

theorem transferSum {g1 g2 : Graph} {F : PairList}
    (hp1 : (F.map Prod.fst).Perm g1.nodes) (hp2 : (F.map Prod.snd).Perm g2.nodes)
    {f1 f2 : Nat → Nat} (hf : ∀ p ∈ F, f1 p.1 = f2 p.2) :
    (g1.nodes.map f1).sum = (g2.nodes.map f2).sum := by
  have e1 : (g1.nodes.map f1).sum = ((F.map Prod.fst).map f1).sum :=
    (List.Perm.sum_eq ((hp1.map f1))).symm
  have e2 : (g2.nodes.map f2).sum = ((F.map Prod.snd).map f2).sum :=
    (List.Perm.sum_eq ((hp2.map f2))).symm
  rw [e1, e2, List.map_map, List.map_map]
  congr 1
  exact List.map_congr_left hf

theorem mapped1_eq_mem {F m : PairList} (hnd1 : (F.map Prod.fst).Nodup)
    (hsub : ∀ p ∈ m, p ∈ F) {v : Nat × Nat} (hv : v ∈ F) :
    (mapped1 m v.1 = true ↔ v ∈ m) := by
  rw [mapped1_iff]
  constructor
  · rintro ⟨p, hpm, hpv⟩
    have := pairEq_of_fst hnd1 (hsub p hpm) hv hpv
    exact this ▸ hpm
  · intro h
    exact ⟨v, h, rfl⟩

theorem mapped2_eq_mem {F m : PairList} (hnd2 : (F.map Prod.snd).Nodup)
    (hsub : ∀ p ∈ m, p ∈ F) {v : Nat × Nat} (hv : v ∈ F) :
    (mapped2 m v.2 = true ↔ v ∈ m) := by
  rw [mapped2_iff]
  constructor
  · rintro ⟨p, hpm, hpv⟩
    have := pairEq_of_snd hnd2 (hsub p hpm) hv hpv
    exact this ▸ hpm
  · intro h
    exact ⟨v, h, rfl⟩

theorem mappedCorr {F m : PairList} (hnd1 : (F.map Prod.fst).Nodup)
    (hnd2 : (F.map Prod.snd).Nodup) (hsub : ∀ p ∈ m, p ∈ F)
    {v : Nat × Nat} (hv : v ∈ F) :
    mapped1 m v.1 = mapped2 m v.2 :=
  boolEq_of_iff ((mapped1_eq_mem hnd1 hsub hv).trans
    (mapped2_eq_mem hnd2 hsub hv).symm)

theorem adjCorr {g1 g2 : Graph} {F : PairList}
    (hmult : ∀ p ∈ F, ∀ q ∈ F, g1.mult p.1 q.1 = g2.mult p.2 q.2)
    {p q : Nat × Nat} (hp : p ∈ F) (hq : q ∈ F) :
    g1.adj p.1 q.1 = g2.adj p.2 q.2 := by
  unfold Graph.adj
  rw [hmult p hp q hq]

theorem containsMapFst (m : PairList) (u : Nat) :
    (m.map Prod.fst).contains u = mapped1 m u := rfl

theorem containsMapSnd (m : PairList) (v : Nat) :
    (m.map Prod.snd).contains v = mapped2 m v := rfl

theorem termOutCorr {g1 g2 : Graph} {F m : PairList}
    (hnd1 : (F.map Prod.fst).Nodup) (hnd2 : (F.map Prod.snd).Nodup)
    (hmult : ∀ p ∈ F, ∀ q ∈ F, g1.mult p.1 q.1 = g2.mult p.2 q.2)
    (hsub : ∀ p ∈ m, p ∈ F) {v : Nat × Nat} (hv : v ∈ F) :
    inTermOut g1 (m.map Prod.fst) v.1 = inTermOut g2 (m.map Prod.snd) v.2 := by
  unfold inTermOut
  rw [containsMapFst, containsMapSnd, mappedCorr hnd1 hnd2 hsub hv]
  congr 1
  apply boolEq_of_iff
  simp only [List.any_eq_true, List.mem_map]
  constructor
  · rintro ⟨u, ⟨p, hpm, hpu⟩, hadj⟩
    exact ⟨p.2, ⟨p, hpm, rfl⟩, by
      rw [← adjCorr hmult (hsub p hpm) hv, hpu]; exact hadj⟩
  · rintro ⟨u, ⟨p, hpm, hpu⟩, hadj⟩
    exact ⟨p.1, ⟨p, hpm, rfl⟩, by
      rw [adjCorr hmult (hsub p hpm) hv, hpu]; exact hadj⟩

theorem termInCorr {g1 g2 : Graph} {F m : PairList}
    (hnd1 : (F.map Prod.fst).Nodup) (hnd2 : (F.map Prod.snd).Nodup)
    (hmult : ∀ p ∈ F, ∀ q ∈ F, g1.mult p.1 q.1 = g2.mult p.2 q.2)
    (hsub : ∀ p ∈ m, p ∈ F) {v : Nat × Nat} (hv : v ∈ F) :
    inTermIn g1 (m.map Prod.fst) v.1 = inTermIn g2 (m.map Prod.snd) v.2 := by
  unfold inTermIn
  rw [containsMapFst, containsMapSnd, mappedCorr hnd1 hnd2 hsub hv]
  congr 1
  apply boolEq_of_iff
  simp only [List.any_eq_true, List.mem_map]
  constructor
  · rintro ⟨u, ⟨p, hpm, hpu⟩, hadj⟩
    exact ⟨p.2, ⟨p, hpm, rfl⟩, by
      rw [← adjCorr hmult hv (hsub p hpm), hpu]; exact hadj⟩
  · rintro ⟨u, ⟨p, hpm, hpu⟩, hadj⟩
    exact ⟨p.1, ⟨p, hpm, rfl⟩, by
      rw [adjCorr hmult hv (hsub p hpm), hpu]; exact hadj⟩

theorem outsideTermCorr {g1 g2 : Graph} {F m : PairList}
    (hnd1 : (F.map Prod.fst).Nodup) (hnd2 : (F.map Prod.snd).Nodup)
    (hmult : ∀ p ∈ F, ∀ q ∈ F, g1.mult p.1 q.1 = g2.mult p.2 q.2)
    (hsub : ∀ p ∈ m, p ∈ F) {v : Nat × Nat} (hv : v ∈ F) :
    outsideTerm g1 (m.map Prod.fst) v.1 = outsideTerm g2 (m.map Prod.snd) v.2 := by
  unfold outsideTerm
  rw [containsMapFst, containsMapSnd, mappedCorr hnd1 hnd2 hsub hv,
    termOutCorr hnd1 hnd2 hmult hsub hv, termInCorr hnd1 hnd2 hmult hsub hv]

/-! ### Soundness of the search -/

theorem memUnmapped {g : Graph} {ms : List Nat} {v : Nat} :
    v ∈ unmappedList g ms ↔ v ∈ g.nodes ∧ ms.contains v = false := by
  unfold unmappedList
  rw [List.mem_filter]
  simp

theorem memFrontierOut {g : Graph} {ms : List Nat} {v : Nat} :
    v ∈ frontierOut g ms ↔ v ∈ g.nodes ∧ inTermOut g ms v = true := by
  unfold frontierOut
  exact List.mem_filter

theorem memFrontierIn {g : Graph} {ms : List Nat} {v : Nat} :
    v ∈ frontierIn g ms ↔ v ∈ g.nodes ∧ inTermIn g ms v = true := by
  unfold frontierIn
  exact List.mem_filter

theorem inTermOut_unmapped {g : Graph} {ms : List Nat} {v : Nat}
    (h : inTermOut g ms v = true) : ms.contains v = false := by
  unfold inTermOut at h
  rcases andSplit h with ⟨h1, _⟩
  simpa using h1

theorem inTermIn_unmapped {g : Graph} {ms : List Nat} {v : Nat}
    (h : inTermIn g ms v = true) : ms.contains v = false := by
  unfold inTermIn at h
  rcases andSplit h with ⟨h1, _⟩
  simpa using h1

/-- Any generated candidate pair joins two in-graph, currently unmapped
nodes. -/
theorem candidateProps {g1 g2 : Graph} {m : PairList} {p : Nat × Nat}
    (hp : p ∈ candidatePairs g1 g2 m) :
    p.1 ∈ g1.nodes ∧ p.2 ∈ g2.nodes ∧
      mapped1 m p.1 = false ∧ mapped2 m p.2 = false := by
  unfold candidatePairs at hp
  simp only at hp
  cases h2o : listMin (frontierOut g2 (m.map Prod.snd)) with
  | some t2 =>
    rw [h2o] at hp
    rcases List.mem_map.mp hp with ⟨n1, hn1, hpe⟩
    rcases memFrontierOut.mp hn1 with ⟨hn1g, hn1t⟩
    rcases memFrontierOut.mp (listMin_mem h2o) with ⟨ht2g, ht2t⟩
    subst hpe
    exact ⟨hn1g, ht2g, inTermOut_unmapped hn1t, inTermOut_unmapped ht2t⟩
  | none =>
    rw [h2o] at hp
    cases h2i : listMin (frontierIn g2 (m.map Prod.snd)) with
    | some t2 =>
      rw [h2i] at hp
      rcases List.mem_map.mp hp with ⟨n1, hn1, hpe⟩
      rcases memFrontierIn.mp hn1 with ⟨hn1g, hn1t⟩
      rcases memFrontierIn.mp (listMin_mem h2i) with ⟨ht2g, ht2t⟩
      subst hpe
      exact ⟨hn1g, ht2g, inTermIn_unmapped hn1t, inTermIn_unmapped ht2t⟩
    | none =>
      rw [h2i] at hp
      by_cases hg : ((frontierOut g1 (m.map Prod.fst)).isEmpty &&
          (frontierIn g1 (m.map Prod.fst)).isEmpty) = true
      · rw [if_pos hg] at hp
        cases h2u : listMin (unmappedList g2 (m.map Prod.snd)) with
        | some t2 =>
          rw [h2u] at hp
          rcases List.mem_map.mp hp with ⟨n1, hn1, hpe⟩
          rcases memUnmapped.mp hn1 with ⟨hn1g, hn1u⟩
          rcases memUnmapped.mp (listMin_mem h2u) with ⟨ht2g, ht2u⟩
          subst hpe
          exact ⟨hn1g, ht2g, hn1u, ht2u⟩
        | none => rw [h2u] at hp; simp at hp
      · rw [if_neg hg] at hp; simp at hp

theorem stateInv_nil (g1 g2 : Graph) (mode : MatchMode) :
    StateInv g1 g2 mode [] := by
  refine ⟨?_, ?_, ?_, ?_⟩ <;> simp

theorem stateInv_push {g1 g2 : Graph} {mode : MatchMode} {m : PairList}
    (hInv : StateInv g1 g2 mode m) {p : Nat × Nat}
    (hc : p ∈ candidatePairs g1 g2 m)
    (hf : feasible g1 g2 mode m p.1 p.2 = true) :
    StateInv g1 g2 mode (p :: m) := by
  rcases candidateProps hc with ⟨hp1, hp2, hu1, hu2⟩
  rcases hInv with ⟨hmem, hnd1, hnd2, hpw⟩
  unfold feasible at hf
  rcases andSplit hf with ⟨hf1, hla⟩
  rcases andSplit hf1 with ⟨hsl, hlb⟩
  refine ⟨?_, ?_, ?_, ?_⟩
  · intro q hq
    rcases List.mem_cons.mp hq with h | h
    · subst h; exact ⟨hp1, hp2⟩
    · exact hmem q h
  · rw [List.map_cons, List.nodup_cons]
    exact ⟨by simpa [mapped1] using hu1, hnd1⟩
  · rw [List.map_cons, List.nodup_cons]
    exact ⟨by simpa [mapped2] using hu2, hnd2⟩
  · intro a ha b hb
    have hlbAll := List.all_eq_true.mp hlb
    rcases List.mem_cons.mp ha with ha' | ha' <;>
      rcases List.mem_cons.mp hb with hb' | hb'
    · subst ha'; subst hb'
      exact hsl
    · subst ha'
      exact (andSplit (hlbAll b hb')).2
    · subst hb'
      exact (andSplit (hlbAll a ha')).1
    · exact hpw a ha' b hb'

theorem searchFrom_sound {g1 g2 : Graph} {mode : MatchMode} :
    ∀ (fuel : Nat) (m mp : PairList),
      StateInv g1 g2 mode m → mp ∈ searchFrom g1 g2 mode fuel m →
      ∃ mFin : PairList, mp = mFin.reverse ∧ StateInv g1 g2 mode mFin ∧
        isComplete g2 mFin = true := by
  intro fuel
  induction fuel with
  | zero =>
    intro m mp hInv hmem
    simp only [searchFrom] at hmem
    by_cases hcp : isComplete g2 m = true
    · rw [if_pos hcp] at hmem
      rcases List.mem_singleton.mp hmem with h
      exact ⟨m, h, hInv, hcp⟩
    · rw [if_neg hcp] at hmem
      simp at hmem
  | succ fuel ih =>
    intro m mp hInv hmem
    simp only [searchFrom] at hmem
    by_cases hcp : isComplete g2 m = true
    · rw [if_pos hcp] at hmem
      rcases List.mem_singleton.mp hmem with h
      exact ⟨m, h, hInv, hcp⟩
    · rw [if_neg hcp] at hmem
      rcases List.mem_flatMap.mp hmem with ⟨p, hpc, hmp⟩
      by_cases hf : feasible g1 g2 mode m p.1 p.2 = true
      · rw [if_pos hf] at hmp
        exact ih (p :: m) mp (stateInv_push hInv hpc hf) hmp
      · rw [if_neg hf] at hmp
        simp at hmp

theorem complete_perm_snd {g2 : Graph} {m : PairList} (hnodes : g2.nodes.Nodup)
    (hsnd : (m.map Prod.snd).Nodup) (hin : ∀ p ∈ m, p.2 ∈ g2.nodes)
    (hc : isComplete g2 m = true) : (m.map Prod.snd).Perm g2.nodes := by
  rw [List.perm_ext_iff_of_nodup hsnd hnodes]
  intro a
  constructor
  · intro ha
    rcases List.mem_map.mp ha with ⟨p, hpm, hpa⟩
    exact hpa ▸ hin p hpm
  · intro ha
    have := List.all_eq_true.mp hc a ha
    rcases mapped2_iff m a |>.mp this with ⟨p, hpm, hpa⟩
    exact List.mem_map.mpr ⟨p, hpm, hpa⟩

theorem complete_perm_fst {g1 : Graph} {m : PairList} (hnodes : g1.nodes.Nodup)
    (hfst : (m.map Prod.fst).Nodup) (hin : ∀ p ∈ m, p.1 ∈ g1.nodes)
    (hlen : g1.nodes.length ≤ m.length) : (m.map Prod.fst).Perm g1.nodes := by
  have hsub : (m.map Prod.fst) ⊆ g1.nodes := by
    intro a ha
    rcases List.mem_map.mp ha with ⟨p, hpm, hpa⟩
    exact hpa ▸ hin p hpm
  refine List.Subperm.perm_of_length_le
    (List.subperm_of_subset hfst hsub) ?_
  rw [List.length_map]
  exact hlen

theorem enumerate_prefilter {g1 g2 : Graph} {mode : MatchMode} {mp : PairList}
    (hmp : mp ∈ enumerateMappings g1 g2 mode) :
    prefilterOk g1 g2 mode = true ∧
      mp ∈ searchFrom g1 g2 mode g2.nodes.length [] := by
  unfold enumerateMappings at hmp
  by_cases h : prefilterOk g1 g2 mode = true
  · rw [if_pos h] at hmp
    exact ⟨h, hmp⟩
  · rw [if_neg h] at hmp
    simp at hmp

/-- Soundness workhorse: every enumerated mapping covers the pattern
(Graph₂) exactly once, is injective on the Graph₁ side, stays inside the
graphs, is a bijection in full mode, and satisfies the mode's
adjacency/multiplicity policy on every pair of its pairs. -/
theorem enumerateMappings_sound {g1 g2 : Graph} {mode : MatchMode}
    (hWF1 : GraphWF g1) (hWF2 : GraphWF g2) {mp : PairList}
    (hmp : mp ∈ enumerateMappings g1 g2 mode) :
    (mp.map Prod.snd).Perm g2.nodes ∧ (mp.map Prod.fst).Nodup ∧
    (∀ p ∈ mp, p.1 ∈ g1.nodes ∧ p.2 ∈ g2.nodes) ∧
    (mode = .full → (mp.map Prod.fst).Perm g1.nodes) ∧
    (∀ p ∈ mp, ∀ q ∈ mp, multOk mode (g1.mult p.1 q.1) (g2.mult p.2 q.2) = true) := by
  rcases enumerate_prefilter hmp with ⟨hpre, hsearch⟩
  rcases searchFrom_sound g2.nodes.length [] mp (stateInv_nil g1 g2 mode) hsearch
    with ⟨mFin, hrev, ⟨hmem, hnd1, hnd2, hpw⟩, hcp⟩
  subst hrev
  have hmemR : ∀ p ∈ mFin.reverse, p ∈ mFin := by
    intro p hp; exact List.mem_reverse.mp hp
  have hsndP : (mFin.reverse.map Prod.snd).Perm g2.nodes := by
    refine List.Perm.trans ?_ (complete_perm_snd hWF2.1 hnd2
      (fun p hp => (hmem p hp).2) hcp)
    exact (mFin.reverse_perm.map Prod.snd)
  refine ⟨hsndP, ?_, ?_, ?_, ?_⟩
  · rw [List.map_reverse]
    exact List.nodup_reverse.mpr hnd1
  · intro p hp
    exact hmem p (hmemR p hp)
  · intro hfull
    subst hfull
    have hlen : g1.nodes.length = g2.nodes.length := by
      unfold prefilterOk at hpre
      rcases andSplit hpre with ⟨h1, _⟩
      exact of_decide_eq_true h1
    have hlenF : g1.nodes.length ≤ mFin.length := by
      have := hsndP.length_eq
      rw [List.length_map, List.length_reverse] at this
      omega
    refine List.Perm.trans (mFin.reverse_perm.map Prod.fst) ?_
    exact complete_perm_fst hWF1.1 hnd1 (fun p hp => (hmem p hp).1) hlenF
  · intro p hp q hq
    exact hpw p (hmemR p hp) q (hmemR q hq)

/-! ### Completeness of the search (full-isomorphism mode) -/

theorem partner_fst {g1 : Graph} {F : PairList}
    (hp1 : (F.map Prod.fst).Perm g1.nodes) {u : Nat} (hu : u ∈ g1.nodes) :
    ∃ q, q ∈ F ∧ q.1 = u :=
  List.mem_map.mp (hp1.mem_iff.mpr hu)

theorem partner_snd {g2 : Graph} {F : PairList}
    (hp2 : (F.map Prod.snd).Perm g2.nodes) {v : Nat} (hv : v ∈ g2.nodes) :
    ∃ q, q ∈ F ∧ q.2 = v :=
  List.mem_map.mp (hp2.mem_iff.mpr hv)

theorem cntSuccEq {g1 g2 : Graph} {F : PairList}
    (hp1 : (F.map Prod.fst).Perm g1.nodes) (hp2 : (F.map Prod.snd).Perm g2.nodes)
    (hmult : ∀ p ∈ F, ∀ q ∈ F, g1.mult p.1 q.1 = g2.mult p.2 q.2)
    {v : Nat × Nat} (hv : v ∈ F) {p1 p2 : Nat → Bool}
    (hp : ∀ q ∈ F, p1 q.1 = p2 q.2) :
    cnt (g1.succList v.1) p1 = cnt (g2.succList v.2) p2 := by
  unfold cnt Graph.succList
  rw [List.filter_filter, List.filter_filter]
  exact transferCount hp1 hp2 (fun q hq => by
    rw [hp q hq, adjCorr hmult hv hq])

theorem cntPredEq {g1 g2 : Graph} {F : PairList}
    (hp1 : (F.map Prod.fst).Perm g1.nodes) (hp2 : (F.map Prod.snd).Perm g2.nodes)
    (hmult : ∀ p ∈ F, ∀ q ∈ F, g1.mult p.1 q.1 = g2.mult p.2 q.2)
    {v : Nat × Nat} (hv : v ∈ F) {p1 p2 : Nat → Bool}
    (hp : ∀ q ∈ F, p1 q.1 = p2 q.2) :
    cnt (g1.predList v.1) p1 = cnt (g2.predList v.2) p2 := by
  unfold cnt Graph.predList
  rw [List.filter_filter, List.filter_filter]
  exact transferCount hp1 hp2 (fun q hq => by
    rw [hp q hq, adjCorr hmult hq hv])

/-- Under a total isomorphism pairing, any F-pair of unmapped nodes
passes the full-mode feasibility check: no pruning rule can cut the
branch that follows the isomorphism. -/
theorem feasible_of_iso {g1 g2 : Graph} {F m : PairList}
    (hW1 : GraphWF g1) (hW2 : GraphWF g2) (hF : IsoPairs g1 g2 F)
    (hsub : ∀ p ∈ m, p ∈ F) {v : Nat × Nat} (hv : v ∈ F) :
    feasible g1 g2 .full m v.1 v.2 = true := by
  obtain ⟨hp1, hp2, hmult⟩ := hF
  have hnd1 : (F.map Prod.fst).Nodup := hp1.nodup_iff.mpr hW1.1
  have hnd2 : (F.map Prod.snd).Nodup := hp2.nodup_iff.mpr hW2.1
  unfold feasible
  rw [Bool.and_eq_true, Bool.and_eq_true]
  refine ⟨⟨?_, ?_⟩, ?_⟩
  · unfold selfLoopOk
    rw [hmult v hv v hv]
    simp [multOk]
  · unfold lookBack
    rw [List.all_eq_true]
    intro q hq
    rw [Bool.and_eq_true]
    constructor
    · rw [show multOk .full (g1.mult q.1 v.1) (g2.mult q.2 v.2) =
        decide (g1.mult q.1 v.1 = g2.mult q.2 v.2) from rfl,
        hmult q (hsub q hq) v hv]
      simp
    · rw [show multOk .full (g1.mult v.1 q.1) (g2.mult v.2 q.2) =
        decide (g1.mult v.1 q.1 = g2.mult v.2 q.2) from rfl,
        hmult v hv q (hsub q hq)]
      simp
  · have hOut : ∀ q ∈ F, inTermOut g1 (m.map Prod.fst) q.1 =
        inTermOut g2 (m.map Prod.snd) q.2 :=
      fun q hq => termOutCorr hnd1 hnd2 hmult hsub hq
    have hIn : ∀ q ∈ F, inTermIn g1 (m.map Prod.fst) q.1 =
        inTermIn g2 (m.map Prod.snd) q.2 :=
      fun q hq => termInCorr hnd1 hnd2 hmult hsub hq
    have hOutside : ∀ q ∈ F, outsideTerm g1 (m.map Prod.fst) q.1 =
        outsideTerm g2 (m.map Prod.snd) q.2 :=
      fun q hq => outsideTermCorr hnd1 hnd2 hmult hsub hq
    have e1 := cntSuccEq hp1 hp2 hmult hv hOut
    have e2 := cntSuccEq hp1 hp2 hmult hv hIn
    have e3 := cntPredEq hp1 hp2 hmult hv hOut
    have e4 := cntPredEq hp1 hp2 hmult hv hIn
    have e5 := cntSuccEq hp1 hp2 hmult hv hOutside
    have e6 := cntPredEq hp1 hp2 hmult hv hOutside
    simp [lookAhead, cmpCount, e1, e2, e3, e4, e5, e6]

/-- Under a total isomorphism pairing, the candidate generator always
offers at least one pair of the pairing whenever the state is not
complete: the three generation branches (terminal-out, terminal-in,
fallback) each contain the partner of the chosen Graph₂ node. -/
theorem candidate_of_iso {g1 g2 : Graph} {F m : PairList}
    (hW1 : GraphWF g1) (hW2 : GraphWF g2) (hF : IsoPairs g1 g2 F)
    (hsub : ∀ p ∈ m, p ∈ F) (hnc : isComplete g2 m = false) :
    ∃ v, v ∈ F ∧ v ∈ candidatePairs g1 g2 m := by
  obtain ⟨hp1, hp2, hmult⟩ := hF
  have hnd1 : (F.map Prod.fst).Nodup := hp1.nodup_iff.mpr hW1.1
  have hnd2 : (F.map Prod.snd).Nodup := hp2.nodup_iff.mpr hW2.1
  unfold candidatePairs
  simp only
  cases h2o : listMin (frontierOut g2 (m.map Prod.snd)) with
  | some t2 =>
    have ht2 := listMin_mem h2o
    rcases memFrontierOut.mp ht2 with ⟨ht2g, ht2t⟩
    rcases partner_snd hp2 ht2g with ⟨q, hqF, hq2⟩
    refine ⟨q, hqF, ?_⟩
    apply List.mem_map.mpr
    refine ⟨q.1, ?_, by rw [← hq2]⟩
    apply memFrontierOut.mpr
    refine ⟨hp1.mem_iff.mp (List.mem_map.mpr ⟨q, hqF, rfl⟩), ?_⟩
    rw [termOutCorr hnd1 hnd2 hmult hsub hqF, hq2]
    exact ht2t
  | none =>
    have h2onil := (listMin_eq_none _).mp h2o
    cases h2i : listMin (frontierIn g2 (m.map Prod.snd)) with
    | some t2 =>
      have ht2 := listMin_mem h2i
      rcases memFrontierIn.mp ht2 with ⟨ht2g, ht2t⟩
      rcases partner_snd hp2 ht2g with ⟨q, hqF, hq2⟩
      refine ⟨q, hqF, ?_⟩
      apply List.mem_map.mpr
      refine ⟨q.1, ?_, by rw [← hq2]⟩
      apply memFrontierIn.mpr
      refine ⟨hp1.mem_iff.mp (List.mem_map.mpr ⟨q, hqF, rfl⟩), ?_⟩
      rw [termInCorr hnd1 hnd2 hmult hsub hqF, hq2]
      exact ht2t
    | none =>
      have h2inil := (listMin_eq_none _).mp h2i
      have h1onil : frontierOut g1 (m.map Prod.fst) = [] := by
        rw [List.eq_nil_iff_forall_not_mem]
        intro v1 hv1
        rcases memFrontierOut.mp hv1 with ⟨hv1g, hv1t⟩
        rcases partner_fst hp1 hv1g with ⟨q, hqF, hq1⟩
        have hq2f : q.2 ∈ frontierOut g2 (m.map Prod.snd) := by
          apply memFrontierOut.mpr
          refine ⟨hp2.mem_iff.mp (List.mem_map.mpr ⟨q, hqF, rfl⟩), ?_⟩
          rw [← termOutCorr hnd1 hnd2 hmult hsub hqF, hq1]
          exact hv1t
        rw [h2onil] at hq2f
        simp at hq2f
      have h1inil : frontierIn g1 (m.map Prod.fst) = [] := by
        rw [List.eq_nil_iff_forall_not_mem]
        intro v1 hv1
        rcases memFrontierIn.mp hv1 with ⟨hv1g, hv1t⟩
        rcases partner_fst hp1 hv1g with ⟨q, hqF, hq1⟩
        have hq2f : q.2 ∈ frontierIn g2 (m.map Prod.snd) := by
          apply memFrontierIn.mpr
          refine ⟨hp2.mem_iff.mp (List.mem_map.mpr ⟨q, hqF, rfl⟩), ?_⟩
          rw [← termInCorr hnd1 hnd2 hmult hsub hqF, hq1]
          exact hv1t
        rw [h2inil] at hq2f
        simp at hq2f
      rw [if_pos (by simp [h1onil, h1inil])]
      have hex : ∃ v2, v2 ∈ g2.nodes ∧ mapped2 m v2 = false := by
        by_contra hall
        push_neg at hall
        have hcomp : isComplete g2 m = true := by
          unfold isComplete
          rw [List.all_eq_true]
          intro v hv
          cases hb : mapped2 m v with
          | false => exact absurd hb (hall v hv)
          | true => rfl
        rw [hcomp] at hnc
        cases hnc
      rcases hex with ⟨v2, hv2g, hv2u⟩
      have hne : unmappedList g2 (m.map Prod.snd) ≠ [] := by
        intro hnil
        have hv2m : v2 ∈ unmappedList g2 (m.map Prod.snd) :=
          memUnmapped.mpr ⟨hv2g, by rw [containsMapSnd]; exact hv2u⟩
        rw [hnil] at hv2m
        simp at hv2m
      cases h2u : listMin (unmappedList g2 (m.map Prod.snd)) with
      | none => exact absurd ((listMin_eq_none _).mp h2u) hne
      | some t2 =>
        have ht2 := listMin_mem h2u
        rcases memUnmapped.mp ht2 with ⟨ht2g, ht2u⟩
        rcases partner_snd hp2 ht2g with ⟨q, hqF, hq2⟩
        refine ⟨q, hqF, ?_⟩
        apply List.mem_map.mpr
        refine ⟨q.1, ?_, by rw [← hq2]⟩
        apply memUnmapped.mpr
        refine ⟨hp1.mem_iff.mp (List.mem_map.mpr ⟨q, hqF, rfl⟩), ?_⟩
        rw [containsMapFst, mappedCorr hnd1 hnd2 hsub hqF, hq2]
        rw [containsMapSnd] at ht2u
        exact ht2u

theorem unmappedCount_nil (g2 : Graph) :
    unmappedCount g2 [] = g2.nodes.length := by
  unfold unmappedCount
  simp [mapped2]

theorem unmappedCount_push {g2 : Graph} {m : PairList} (hnd : g2.nodes.Nodup)
    {p : Nat × Nat} (hp : p.2 ∈ g2.nodes) (hu : mapped2 m p.2 = false) :
    unmappedCount g2 (p :: m) + 1 = unmappedCount g2 m := by
  unfold unmappedCount
  have hperm := List.perm_cons_erase hp
  have e1 : (g2.nodes.filter (fun v => !(mapped2 m v))).length
      = ((p.2 :: g2.nodes.erase p.2).filter (fun v => !(mapped2 m v))).length :=
    (hperm.filter _).length_eq
  have e2 : (g2.nodes.filter (fun v => !(mapped2 (p :: m) v))).length
      = ((p.2 :: g2.nodes.erase p.2).filter
          (fun v => !(mapped2 (p :: m) v))).length :=
    (hperm.filter _).length_eq
  rw [e1, e2]
  have h1 : (!(mapped2 (p :: m) p.2)) = false := by
    simp [mapped2, List.contains_cons]
  have h2 : (!(mapped2 m p.2)) = true := by simp [hu]
  have hc1 : List.filter (fun v => !(mapped2 (p :: m) v)) (p.2 :: g2.nodes.erase p.2)
      = List.filter (fun v => !(mapped2 (p :: m) v)) (g2.nodes.erase p.2) := by
    simp [List.filter_cons, h1]
  have hc2 : List.filter (fun v => !(mapped2 m v)) (p.2 :: g2.nodes.erase p.2)
      = p.2 :: List.filter (fun v => !(mapped2 m v)) (g2.nodes.erase p.2) := by
    simp [List.filter_cons, h2]
  rw [hc1, hc2]
  have hcong : (g2.nodes.erase p.2).filter (fun v => !(mapped2 (p :: m) v))
      = (g2.nodes.erase p.2).filter (fun v => !(mapped2 m v)) := by
    apply List.filter_congr
    intro v hv
    have hvne : v ≠ p.2 := (hnd.mem_erase_iff.mp hv).1
    simp [mapped2, List.contains_cons, hvne]
  rw [hcong]
  simp

theorem complete_of_count_zero {g2 : Graph} {m : PairList}
    (h : unmappedCount g2 m = 0) : isComplete g2 m = true := by
  unfold unmappedCount at h
  rw [List.length_eq_zero] at h
  unfold isComplete
  rw [List.all_eq_true]
  intro v hv
  cases hb : mapped2 m v with
  | true => rfl
  | false =>
    have hvm : v ∈ g2.nodes.filter (fun v => !(mapped2 m v)) :=
      List.mem_filter.mpr ⟨hv, by simp [hb]⟩
    rw [h] at hvm
    simp at hvm

/-- Completeness workhorse: whenever a total isomorphism pairing extends
the current consistent state, the full-mode search cannot come back
empty. -/
theorem searchFrom_complete {g1 g2 : Graph} {F : PairList}
    (hW1 : GraphWF g1) (hW2 : GraphWF g2) (hF : IsoPairs g1 g2 F) :
    ∀ (fuel : Nat) (m : PairList), (∀ p ∈ m, p ∈ F) →
      unmappedCount g2 m ≤ fuel →
      searchFrom g1 g2 .full fuel m ≠ [] := by
  intro fuel
  induction fuel with
  | zero =>
    intro m hsub hcnt
    have hc : isComplete g2 m = true :=
      complete_of_count_zero (Nat.le_zero.mp hcnt)
    simp [searchFrom, hc]
  | succ fuel ih =>
    intro m hsub hcnt
    by_cases hc : isComplete g2 m = true
    · simp [searchFrom, hc]
    · have hcf : isComplete g2 m = false := by
        cases hb : isComplete g2 m with
        | true => exact absurd hb hc
        | false => rfl
      rcases candidate_of_iso hW1 hW2 hF hsub hcf with ⟨v, hvF, hvc⟩
      have hfeas := feasible_of_iso hW1 hW2 hF hsub hvF
      have hsub' : ∀ p ∈ v :: m, p ∈ F := by
        intro p hp
        rcases List.mem_cons.mp hp with h | h
        · exact h ▸ hvF
        · exact hsub p h
      have hv2g : v.2 ∈ g2.nodes := (candidateProps hvc).2.1
      have hv2u : mapped2 m v.2 = false := (candidateProps hvc).2.2.2
      have hcnt' : unmappedCount g2 (v :: m) ≤ fuel := by
        have := unmappedCount_push hW2.1 hv2g hv2u
        omega
      rcases List.exists_mem_of_ne_nil _ (ih (v :: m) hsub' hcnt') with ⟨x, hx⟩
      intro hnil
      rw [searchFrom, if_neg hc] at hnil
      have hxm : x ∈ (candidatePairs g1 g2 m).flatMap (fun p =>
          if feasible g1 g2 .full m p.1 p.2 then
            searchFrom g1 g2 .full fuel (p :: m)
          else []) :=
        List.mem_flatMap.mpr ⟨v, hvc, by rw [if_pos hfeas]; exact hx⟩
      rw [hnil] at hxm
      simp at hxm

theorem deg_transfer {g1 g2 : Graph} {F : PairList}
    (hmult : ∀ p ∈ F, ∀ q ∈ F, g1.mult p.1 q.1 = g2.mult p.2 q.2)
    (hp1 : (F.map Prod.fst).Perm g1.nodes) (hp2 : (F.map Prod.snd).Perm g2.nodes)
    {p : Nat × Nat} (hp : p ∈ F) : g1.deg p.1 = g2.deg p.2 := by
  unfold Graph.deg
  exact transferSum hp1 hp2 (fun q hq => hmult p hp q hq)

theorem degSeq_of_iso {g1 g2 : Graph} {F : PairList} (hF : IsoPairs g1 g2 F) :
    sortedDegreeSeq g1 = sortedDegreeSeq g2 := by
  obtain ⟨hp1, hp2, hmult⟩ := hF
  unfold sortedDegreeSeq
  apply sortNat_eq_of_perm
  have e3 : F.map (fun q => g1.deg q.1) = F.map (fun q => g2.deg q.2) :=
    List.map_congr_left (fun q hq => deg_transfer hmult hp1 hp2 hq)
  have e1 : (g1.nodes.map (fun u => g1.deg u)).Perm
      (F.map (fun q => g1.deg q.1)) := by
    have := (hp1.map (fun u => g1.deg u)).symm
    rw [List.map_map] at this
    exact this
  have e2 : (F.map (fun q => g2.deg q.2)).Perm
      (g2.nodes.map (fun u => g2.deg u)) := by
    have := hp2.map (fun u => g2.deg u)
    rw [List.map_map] at this
    exact this
  exact (e1.trans (e3 ▸ List.Perm.refl _)).trans e2

theorem prefilterOk_of_iso {g1 g2 : Graph} {F : PairList}
    (hF : IsoPairs g1 g2 F) : prefilterOk g1 g2 .full = true := by
  have hlen : g1.nodes.length = g2.nodes.length := by
    have l1 := hF.1.length_eq
    have l2 := hF.2.1.length_eq
    rw [List.length_map] at l1 l2
    omega
  unfold prefilterOk
  rw [Bool.and_eq_true]
  exact ⟨decide_eq_true hlen, decide_eq_true (degSeq_of_iso hF)⟩

/-- Completeness surface: an adjacency-preserving total pairing forces
the engine to answer true. -/
theorem isIsomorphic_of_iso {g1 g2 : Graph} {F : PairList}
    (hW1 : GraphWF g1) (hW2 : GraphWF g2) (hF : IsoPairs g1 g2 F) :
    isIsomorphic g1 g2 = true := by
  unfold isIsomorphic enumerateMappings
  rw [if_pos (prefilterOk_of_iso hF)]
  have h := searchFrom_complete hW1 hW2 hF g2.nodes.length []
    (by simp) (le_of_eq (unmappedCount_nil g2))
  simp [List.isEmpty_iff, h]

/-- Soundness surface: a true answer of the engine yields an
adjacency-preserving total pairing. -/
theorem iso_of_isIsomorphic {g1 g2 : Graph} (hW1 : GraphWF g1)
    (hW2 : GraphWF g2) (h : isIsomorphic g1 g2 = true) :
    ∃ F, IsoPairs g1 g2 F := by
  unfold isIsomorphic at h
  have hne : enumerateMappings g1 g2 .full ≠ [] := by
    intro hnil
    rw [hnil] at h
    simp at h
  rcases List.exists_mem_of_ne_nil _ hne with ⟨mp, hmp⟩
  rcases enumerateMappings_sound hW1 hW2 hmp with ⟨hsnd, _, _, hfull, hmult⟩
  refine ⟨mp, hfull rfl, hsnd, ?_⟩
  intro p hp q hq
  exact of_decide_eq_true (hmult p hp q hq)

/-! ### Brute-force equivalence and relabeling -/

theorem assoc1_eq {m : PairList} (hnd : (m.map Prod.fst).Nodup)
    {q : Nat × Nat} (hq : q ∈ m) : assoc1 m q.1 = q.2 := by
  unfold assoc1
  cases hf : m.find? (fun p => p.1 == q.1) with
  | none =>
    rw [List.find?_eq_none] at hf
    exact absurd (by simp) (hf q hq)
  | some p =>
    have hpred := List.find?_some hf
    have hpm := List.mem_of_find?_eq_some hf
    have hpq : p.1 = q.1 := by simpa using hpred
    exact congrArg Prod.snd (pairEq_of_fst hnd hpm hq hpq)

theorem assoc1_zip_map (f : Nat → Nat) :
    ∀ (l : List Nat) (u : Nat), u ∈ l →
      assoc1 (l.zip (l.map f)) u = f u := by
  intro l
  induction l with
  | nil => intro u hu; simp at hu
  | cons x xs ih =>
    intro u hu
    rw [List.map_cons, List.zip_cons_cons]
    by_cases hux : x = u
    · subst hux
      unfold assoc1
      rw [List.find?_cons_of_pos _ (by simp)]
    · unfold assoc1
      rw [List.find?_cons_of_neg _ (by simp [hux])]
      have hu' : u ∈ xs := by
        rcases List.mem_cons.mp hu with h | h
        · exact absurd h.symm hux
        · exact h
      have := ih u hu'
      unfold assoc1 at this
      exact this

theorem brute_of_iso {g1 g2 : Graph} (hW1 : GraphWF g1) (hW2 : GraphWF g2)
    {F : PairList} (hF : IsoPairs g1 g2 F) : bruteForceIso g1 g2 = true := by
  obtain ⟨hp1, hp2, hmult⟩ := hF
  have hnd1 : (F.map Prod.fst).Nodup := hp1.nodup_iff.mpr hW1.1
  have hlen : g1.nodes.length = g2.nodes.length := by
    have l1 := hp1.length_eq
    have l2 := hp2.length_eq
    rw [List.length_map] at l1 l2
    omega
  unfold bruteForceIso
  rw [Bool.and_eq_true]
  refine ⟨decide_eq_true hlen, ?_⟩
  rw [List.any_eq_true]
  refine ⟨g1.nodes.map (assoc1 F), ?_, ?_⟩
  · rw [List.mem_permutations]
    have h1 : (g1.nodes.map (assoc1 F)).Perm (F.map (fun q => assoc1 F q.1)) := by
      have := (hp1.map (assoc1 F)).symm
      rw [List.map_map] at this
      exact this
    have h2 : F.map (fun q => assoc1 F q.1) = F.map Prod.snd :=
      List.map_congr_left (fun q hq => assoc1_eq hnd1 hq)
    exact (h1.trans (h2 ▸ List.Perm.refl _)).trans hp2
  · unfold isoCheck
    rw [List.all_eq_true]
    intro u hu
    rw [List.all_eq_true]
    intro v hv
    rw [assoc1_zip_map (assoc1 F) g1.nodes u hu,
      assoc1_zip_map (assoc1 F) g1.nodes v hv]
    rcases partner_fst hp1 hu with ⟨qu, hquF, hqu1⟩
    rcases partner_fst hp1 hv with ⟨qv, hqvF, hqv1⟩
    subst hqu1
    subst hqv1
    rw [assoc1_eq hnd1 hquF, assoc1_eq hnd1 hqvF]
    exact decide_eq_true (hmult qu hquF qv hqvF)

theorem iso_of_brute {g1 g2 : Graph} (hW1 : GraphWF g1)
    (h : bruteForceIso g1 g2 = true) : ∃ F, IsoPairs g1 g2 F := by
  unfold bruteForceIso at h
  rcases andSplit h with ⟨hlend, hany⟩
  have hlen : g1.nodes.length = g2.nodes.length := of_decide_eq_true hlend
  rw [List.any_eq_true] at hany
  rcases hany with ⟨p, hpmem, hcheck⟩
  have hperm : p.Perm g2.nodes := List.mem_permutations.mp hpmem
  have hple : g1.nodes.length ≤ p.length := by
    rw [hperm.length_eq]
    omega
  have hfst : (g1.nodes.zip p).map Prod.fst = g1.nodes :=
    List.map_fst_zip _ _ hple
  have hsnd : (g1.nodes.zip p).map Prod.snd = p :=
    List.map_snd_zip _ _ (by rw [hperm.length_eq]; omega)
  refine ⟨g1.nodes.zip p, by rw [hfst], by rw [hsnd]; exact hperm, ?_⟩
  intro q hq r hr
  have hndz : ((g1.nodes.zip p).map Prod.fst).Nodup := by
    rw [hfst]
    exact hW1.1
  unfold isoCheck at hcheck
  rw [List.all_eq_true] at hcheck
  have hq1 : q.1 ∈ g1.nodes := by
    have := List.mem_map_of_mem Prod.fst hq
    rw [hfst] at this
    exact this
  have hr1 : r.1 ∈ g1.nodes := by
    have := List.mem_map_of_mem Prod.fst hr
    rw [hfst] at this
    exact this
  have hall2 := hcheck q.1 hq1
  rw [List.all_eq_true] at hall2
  have heq := of_decide_eq_true (hall2 r.1 hr1)
  rw [assoc1_eq hndz hq, assoc1_eq hndz hr] at heq
  exact heq

theorem renameGraph_WF {g : Graph} {r : Nat → Nat} (hW : GraphWF g)
    (hr : Function.Injective r) : GraphWF (renameGraph g r) := by
  constructor
  · exact List.Nodup.map hr hW.1
  · intro a ha
    rcases List.mem_map.mp ha with ⟨b, hb, hba⟩
    subst hba
    exact ⟨List.mem_map_of_mem _ (hW.2 b hb).1,
      List.mem_map_of_mem _ (hW.2 b hb).2⟩

theorem prodMapInjective {r : Nat → Nat} (hr : Function.Injective r) :
    Function.Injective (fun a : Nat × Nat => (r a.1, r a.2)) := by
  intro a b h
  simp only [Prod.mk.injEq] at h
  exact Prod.ext (hr h.1) (hr h.2)

theorem countMapPair {r : Nat → Nat} (hr : Function.Injective r)
    (l : List (Nat × Nat)) (a b : Nat) :
    (l.map (fun q => (r q.1, r q.2))).count (r a, r b) = l.count (a, b) := by
  induction l with
  | nil => rfl
  | cons x xs ih =>
    rw [List.map_cons, List.count_cons, List.count_cons, ih]
    congr 1
    have hb : ((r x.1, r x.2) == (r a, r b)) = (x == (a, b)) := by
      apply boolEq_of_iff
      simp [Prod.ext_iff, hr.eq_iff]
    rw [hb]

theorem renameGraph_mult {g : Graph} {r : Nat → Nat}
    (hr : Function.Injective r) (u v : Nat) :
    (renameGraph g r).mult (r u) (r v) = g.mult u v := by
  have hcount : ∀ a b : Nat,
      (g.arcs.map (fun q => (r q.1, r q.2))).count (r a, r b)
        = g.arcs.count (a, b) := fun a b => countMapPair hr g.arcs a b
  unfold renameGraph Graph.mult
  simp only
  by_cases hd : g.directed
  · simp [hd, hcount]
  · by_cases huv : u = v
    · subst huv
      simp [hd, hcount]
    · have hne : ¬(r u = r v) := fun he => huv (hr he)
      simp [hd, huv, hne, hcount]

theorem rename_isoPairs {g : Graph} (r : Nat → Nat)
    (hr : Function.Injective r) :
    IsoPairs g (renameGraph g r) (g.nodes.map (fun u => (u, r u))) := by
  refine ⟨?_, ?_, ?_⟩
  · have he : (g.nodes.map (fun u => (u, r u))).map Prod.fst = g.nodes := by
      rw [List.map_map]
      show g.nodes.map (fun u => u) = g.nodes
      exact List.map_id' g.nodes
    rw [he]
  · rw [List.map_map]
    exact List.Perm.refl _
  · intro p hp q hq
    rcases List.mem_map.mp hp with ⟨u, hu, hup⟩
    rcases List.mem_map.mp hq with ⟨v, hv, hvq⟩
    subst hup
    subst hvq
    exact (renameGraph_mult hr u v).symm

/-! ### Matching-state push/pop rollback and matcher construction -/

theorem dropDepth_addFrontier {cand : List Nat} {d : Nat} {t : PairList}
    (hb : ∀ e ∈ t, e.2 ≤ d) :
    dropDepth (addFrontierEntries cand (d + 1) t) (d + 1) = t := by
  unfold dropDepth addFrontierEntries
  rw [List.filter_append]
  have h1 : ((cand.filter (fun v => !(inTagged t v))).map
      (fun v => (v, d + 1))).filter (fun e => !(e.2 == d + 1)) = [] := by
    rw [List.eq_nil_iff_forall_not_mem]
    intro e he
    rcases List.mem_filter.mp he with ⟨hmem, hpred⟩
    rcases List.mem_map.mp hmem with ⟨v, _, hv⟩
    subst hv
    simp at hpred
  have h2 : t.filter (fun e => !(e.2 == d + 1)) = t := by
    apply List.filter_eq_self.mpr
    intro e he
    have hle := hb e he
    have hne : e.2 ≠ d + 1 := by omega
    simp [hne]
  rw [h1, h2, List.nil_append]

/-- A push followed by a pop is the identity on the matching state,
provided the pushed nodes are unmapped and the state's tags are bounded
by its depth. -/
theorem pop_push_eq {g1 g2 : Graph} {s : MState} {n1 n2 : Nat}
    (hb : TagsBounded s) :
    MState.pop (MState.push g1 g2 s n1 n2) = s := by
  obtain ⟨c1, c2, u1, v1, u2, v2, dep⟩ := s
  obtain ⟨h1, h2, h3, h4⟩ := hb
  unfold MState.push MState.pop
  simp only
  rw [if_neg (by omega : ¬(dep + 1 = 0))]
  simp only [List.tail_cons]
  rw [dropDepth_addFrontier h1, dropDepth_addFrontier h2,
    dropDepth_addFrontier h3, dropDepth_addFrontier h4]
  simp

theorem mkMatcher_error_iff (g1 g2 : Graph) (mode : MatchMode) (wd : Bool) :
    (∃ e, mkMatcher g1 g2 mode wd = Except.error e) ↔
      ((wd = true ∧ (g1.directed = false ∨ g2.directed = false)) ∨
        (mode ≠ MatchMode.full ∧ g1.nodes.length < g2.nodes.length)) := by
  unfold mkMatcher
  by_cases hc1 : (wd && (!g1.directed || !g2.directed)) = true
  · rw [if_pos hc1]
    constructor
    · intro
      left
      rcases andSplit hc1 with ⟨hw, hor⟩
      refine ⟨hw, ?_⟩
      revert hor
      cases g1.directed <;> cases g2.directed <;> simp
    · intro
      exact ⟨ConfigError.directedMismatch, rfl⟩
  · rw [if_neg hc1]
    by_cases hc2 : (decide (mode ≠ MatchMode.full) &&
        decide (g1.nodes.length < g2.nodes.length)) = true
    · rw [if_pos hc2]
      constructor
      · intro
        right
        rcases andSplit hc2 with ⟨hm, hl⟩
        exact ⟨of_decide_eq_true hm, of_decide_eq_true hl⟩
      · intro
        exact ⟨ConfigError.patternTooLarge, rfl⟩
    · rw [if_neg hc2]
      constructor
      · rintro ⟨e, he⟩
        simp at he
      · intro h
        exfalso
        rcases h with ⟨hw, hor⟩ | ⟨hm, hl⟩
        · apply hc1
          rw [hw]
          rcases hor with h | h <;> simp [h]
        · apply hc2
          simp [hm, hl]

theorem mkMatcher_ok {g1 g2 : Graph} {mode : MatchMode} {wd : Bool}
    {M : Matcher} (h : mkMatcher g1 g2 mode wd = Except.ok M) :
    M = ⟨g1, g2, mode⟩ ∧ M.run = enumerateMappings g1 g2 mode := by
  unfold mkMatcher at h
  split_ifs at h
  have hM := (Except.ok.inj h).symm
  subst hM
  exact ⟨rfl, rfl⟩

theorem mem_of_head? {α : Type} {l : List α} {a : α}
    (h : l.head? = some a) : a ∈ l := by
  cases l with
  | nil => simp at h
  | cons x xs =>
    simp only [List.head?, Option.some.injEq] at h
    rw [← h]
    exact List.mem_cons_self x xs

/-! ### The claims -/

/-- C1: every mapping returned by find_mapping or enumerate_mappings (in
any match mode, over well-formed graphs) is a valid bijection (full
mode) or injection (subgraph modes) satisfying the
adjacency-preservation/multiplicity rule of the requested mode on every
replayed pair of mapped edges, and it covers every node of the
smaller/pattern graph (Graph₂) exactly once. -/
theorem C1_mapping_soundness (g1 g2 : Graph) (mode : MatchMode)
    (hW1 : GraphWF g1) (hW2 : GraphWF g2) (mp : PairList)
    (hmp : mp ∈ enumerateMappings g1 g2 mode ∨
      findMapping g1 g2 mode = some mp) :
    (mp.map Prod.snd).Perm g2.nodes ∧
    (mp.map Prod.fst).Nodup ∧
    (∀ p ∈ mp, p.1 ∈ g1.nodes ∧ p.2 ∈ g2.nodes) ∧
    (mode = MatchMode.full → (mp.map Prod.fst).Perm g1.nodes) ∧
    (∀ p ∈ mp, ∀ q ∈ mp,
      multOk mode (g1.mult p.1 q.1) (g2.mult p.2 q.2) = true) := by
  have hmem : mp ∈ enumerateMappings g1 g2 mode := by
    rcases hmp with h | h
    · exact h
    · exact mem_of_head? h
  exact enumerateMappings_sound hW1 hW2 hmem

/-- Witness for C1 at the double-edge graph pair. -/
theorem C1_mapping_soundness_witness :
    (([((0 : Nat), (0 : Nat)), (1, 1)] : PairList).map Prod.snd).Perm dblE.nodes ∧
    (([((0 : Nat), (0 : Nat)), (1, 1)] : PairList).map Prod.fst).Nodup ∧
    (∀ p ∈ ([((0 : Nat), (0 : Nat)), (1, 1)] : PairList),
      p.1 ∈ dblE.nodes ∧ p.2 ∈ dblE.nodes) ∧
    (MatchMode.full = MatchMode.full →
      (([((0 : Nat), (0 : Nat)), (1, 1)] : PairList).map Prod.fst).Perm dblE.nodes) ∧
    (∀ p ∈ ([((0 : Nat), (0 : Nat)), (1, 1)] : PairList),
      ∀ q ∈ ([((0 : Nat), (0 : Nat)), (1, 1)] : PairList),
        multOk MatchMode.full (dblE.mult p.1 q.1) (dblE.mult p.2 q.2) = true) :=
  C1_mapping_soundness dblE dblE MatchMode.full (by decide) (by decide)
    [(0, 0), (1, 1)] (Or.inl (by decide))

/-- C2: for well-formed graphs of at most 8 nodes each, the engine's
is_isomorphic agrees exactly with exhaustive brute-force permutation
search. -/
theorem C2_bruteforce_agreement (g1 g2 : Graph) (hW1 : GraphWF g1)
    (hW2 : GraphWF g2) (h1 : g1.nodes.length ≤ 8)
    (h2 : g2.nodes.length ≤ 8) :
    isIsomorphic g1 g2 = bruteForceIso g1 g2 := by
  apply boolEq_of_iff
  constructor
  · intro h
    rcases iso_of_isIsomorphic hW1 hW2 h with ⟨F, hF⟩
    exact brute_of_iso hW1 hW2 hF
  · intro h
    rcases iso_of_brute hW1 h with ⟨F, hF⟩
    exact isIsomorphic_of_iso hW1 hW2 hF

/-- Witness for C2 on a concrete small pair. -/
theorem C2_bruteforce_agreement_witness :
    isIsomorphic dblE sglE = bruteForceIso dblE sglE :=
  C2_bruteforce_agreement dblE sglE (by decide) (by decide) (by decide)
    (by decide)

/-- C3: for every well-formed graph (undirected, directed, multi-edge or
with self-loops) and every injective renaming of node identifiers, the
engine reports the renamed graph isomorphic to the original. -/
theorem C3_rename_invariance (g : Graph) (r : Nat → Nat) (hW : GraphWF g)
    (hr : Function.Injective r) :
    isIsomorphic g (renameGraph g r) = true :=
  isIsomorphic_of_iso hW (renameGraph_WF hW hr) (rename_isoPairs r hr)

/-- Witness for C3: a directed multigraph with a self-loop, renamed by a
shift. -/
theorem C3_rename_invariance_witness :
    isIsomorphic (Graph.mk true [0, 1, 2] [(0, 1), (0, 1), (1, 1), (2, 0)])
      (renameGraph (Graph.mk true [0, 1, 2] [(0, 1), (0, 1), (1, 1), (2, 0)])
        (fun u => u + 5)) = true :=
  C3_rename_invariance (Graph.mk true [0, 1, 2] [(0, 1), (0, 1), (1, 1), (2, 0)])
    (fun u => u + 5) (by decide) (fun a b h => Nat.add_right_cancel h)

/-- C4: the search is deterministic: two matchers successfully
constructed over the same graphs and mode are equal and run to the same
match sequence, and repeated invocations of find_mapping and
enumerate_mappings on identical inputs return identical results. -/
theorem C4_deterministic (g1 g2 : Graph) (mode : MatchMode) (wd : Bool)
    (M M' : Matcher) (h : mkMatcher g1 g2 mode wd = Except.ok M)
    (h' : mkMatcher g1 g2 mode wd = Except.ok M') :
    M.run = M'.run ∧
    findMapping g1 g2 mode = findMapping g1 g2 mode ∧
    enumerateMappings g1 g2 mode = enumerateMappings g1 g2 mode := by
  have e1 := (mkMatcher_ok h).1
  have e2 := (mkMatcher_ok h').1
  subst e1
  subst e2
  exact ⟨rfl, rfl, rfl⟩

/-- Witness for C4 on the double-edge graph. -/
theorem C4_deterministic_witness :
    (Matcher.mk dblE dblE MatchMode.full).run
      = (Matcher.mk dblE dblE MatchMode.full).run ∧
    findMapping dblE dblE MatchMode.full
      = findMapping dblE dblE MatchMode.full ∧
    enumerateMappings dblE dblE MatchMode.full
      = enumerateMappings dblE dblE MatchMode.full :=
  C4_deterministic dblE dblE MatchMode.full false _ _ rfl rfl

/-- C5: the pre-search filter alone settles trivially rejectable pairs,
with zero feasibility-checker invocations: unequal node counts or (full
mode) unequal sorted degree sequences yield a non-isomorphic verdict
before any search; in subgraph modes a pattern with more nodes than the
host yields the empty match sequence the same way. -/
theorem C5_prefilter (g1 g2 : Graph) :
    (g1.nodes.length ≠ g2.nodes.length →
      isIsomorphic g1 g2 = false ∧
      feasibilityChecks g1 g2 MatchMode.full = 0) ∧
    (sortedDegreeSeq g1 ≠ sortedDegreeSeq g2 →
      isIsomorphic g1 g2 = false ∧
      feasibilityChecks g1 g2 MatchMode.full = 0) ∧
    (∀ mode, mode ≠ MatchMode.full → g1.nodes.length < g2.nodes.length →
      enumerateMappings g1 g2 mode = [] ∧
      feasibilityChecks g1 g2 mode = 0) := by
  refine ⟨?_, ?_, ?_⟩
  · intro h
    have hp : prefilterOk g1 g2 MatchMode.full = false := by
      simp [prefilterOk, h]
    exact ⟨by simp [isIsomorphic, enumerateMappings, hp],
      by simp [feasibilityChecks, hp]⟩
  · intro h
    have hp : prefilterOk g1 g2 MatchMode.full = false := by
      simp [prefilterOk, h]
    exact ⟨by simp [isIsomorphic, enumerateMappings, hp],
      by simp [feasibilityChecks, hp]⟩
  · intro mode hm hlen
    have hp : prefilterOk g1 g2 mode = false := by
      cases mode with
      | full => exact absurd rfl hm
      | subNonInduced => simp [prefilterOk]; omega
      | subInduced => simp [prefilterOk]; omega
    exact ⟨by simp [enumerateMappings, hp], by simp [feasibilityChecks, hp]⟩

/-- Witness for C5: a 1-node versus 2-node pair. -/
theorem C5_prefilter_witness :
    (isIsomorphic oneG dblE = false ∧
      feasibilityChecks oneG dblE MatchMode.full = 0) ∧
    (enumerateMappings oneG dblE MatchMode.subNonInduced = [] ∧
      feasibilityChecks oneG dblE MatchMode.subNonInduced = 0) :=
  ⟨(C5_prefilter oneG dblE).1 (by decide),
   (C5_prefilter oneG dblE).2.2 MatchMode.subNonInduced (by decide) (by decide)⟩

/-- C6: subgraph containment on the cube example: the 4-cycle pattern is
found in the 8-node cube host with a witnessing mapping touching exactly
4 distinct host nodes, and induced matching of the same pattern against
the sub-host made of the cube's two opposite corners (where no 4-cycle
exists) returns false. -/
theorem C6_cube_subgraph :
    isSubgraphIsomorphic cubeG c4pat false = true ∧
    findMapping cubeG c4pat MatchMode.subNonInduced
      = some [(1, 1), (2, 2), (3, 3), (4, 4)] ∧
    (([(1, 1), (2, 2), (3, 3), (4, 4)] : PairList).map Prod.fst).Nodup ∧
    ([(1, 1), (2, 2), (3, 3), (4, 4)] : PairList).length = 4 ∧
    (∀ p ∈ ([(1, 1), (2, 2), (3, 3), (4, 4)] : PairList), p.1 ∈ cubeG.nodes) ∧
    isSubgraphIsomorphic cornersG c4pat true = false := by
  refine ⟨by decide, by decide, by decide, by decide, by decide, by decide⟩

/-- C7: multigraph multiplicity policy: the feasibility checker requires
of every mapped pair, against the candidate pair, equal multiplicity in
full-isomorphism mode and pattern-at-most-host multiplicity in subgraph
mode; concretely, multiplicity 2 against 2 matches, multiplicity 1
(pattern) against 2 (host) fails under full isomorphism (likewise two
double edges against a plain 4-cycle of the same degree sequence) and
succeeds under subgraph matching. -/
theorem C7_multiplicity (g1 g2 : Graph) (mode : MatchMode) (m : PairList)
    (n1 n2 : Nat) (hf : feasible g1 g2 mode m n1 n2 = true) :
    (∀ p ∈ m, multOk mode (g1.mult p.1 n1) (g2.mult p.2 n2) = true ∧
      multOk mode (g1.mult n1 p.1) (g2.mult n2 p.2) = true) ∧
    (∀ hm pm : Nat, multOk MatchMode.full hm pm = decide (hm = pm)) ∧
    (∀ hm pm : Nat, multOk MatchMode.subNonInduced hm pm = decide (pm ≤ hm)) ∧
    isIsomorphic dblE dblE = true ∧
    isIsomorphic dblE sglE = false ∧
    isIsomorphic ddG c4G = false ∧
    isSubgraphIsomorphic dblE sglE false = true := by
  refine ⟨?_, fun _ _ => rfl, fun _ _ => rfl, by decide, by decide, by decide,
    by decide⟩
  intro p hp
  unfold feasible at hf
  rcases andSplit hf with ⟨hf1, _⟩
  rcases andSplit hf1 with ⟨_, hlb⟩
  unfold lookBack at hlb
  exact andSplit (List.all_eq_true.mp hlb p hp)

/-- Witness for C7 at a feasible first candidate of the double-edge
pair. -/
theorem C7_multiplicity_witness :
    (∀ p ∈ ([] : PairList),
      multOk MatchMode.full (dblE.mult p.1 0) (dblE.mult p.2 0) = true ∧
      multOk MatchMode.full (dblE.mult 0 p.1) (dblE.mult 0 p.2) = true) ∧
    (∀ hm pm : Nat, multOk MatchMode.full hm pm = decide (hm = pm)) ∧
    (∀ hm pm : Nat, multOk MatchMode.subNonInduced hm pm = decide (pm ≤ hm)) ∧
    isIsomorphic dblE dblE = true ∧
    isIsomorphic dblE sglE = false ∧
    isIsomorphic ddG c4G = false ∧
    isSubgraphIsomorphic dblE sglE false = true :=
  C7_multiplicity dblE dblE MatchMode.full [] 0 0 (by decide)

/-- C8: a push(n1, n2) of two unmapped nodes followed by pop() restores
exactly the pre-push state: the pair leaves both mapping directions, the
depth is decremented, and exactly the terminal-set entries tagged with
the vacated depth (those that entered at it, none earlier) are removed. -/
theorem C8_pop_push (g1 g2 : Graph) (s : MState) (n1 n2 : Nat)
    (hdep : 0 < (MState.push g1 g2 s n1 n2).depth)
    (hun : UnmappedIn s n1 n2) (hb : TagsBounded s) :
    MState.pop (MState.push g1 g2 s n1 n2) = s :=
  pop_push_eq hb

/-- Witness for C8: push/pop of (2, 2) over the one-pair state reached
on the cube graphs. -/
theorem C8_pop_push_witness :
    MState.pop (MState.push cubeG cubeG
      (MState.push cubeG cubeG (MState.mk [] [] [] [] [] [] 0) 1 1) 2 2)
      = MState.push cubeG cubeG (MState.mk [] [] [] [] [] [] 0) 1 1 :=
  C8_pop_push cubeG cubeG
    (MState.push cubeG cubeG (MState.mk [] [] [] [] [] [] 0) 1 1) 2 2
    (by decide) (by decide) (by decide)

/-- C9: exactly the invalid configurations — directed matching semantics
against an undirected graph capability, or subgraph mode with a pattern
larger than the host — are rejected at matcher construction with a
configuration error; a successfully constructed matcher runs the search
to a plain mapping list, whose empty case is exhaustion ("no match"),
distinct from any error. -/
theorem C9_config_errors (g1 g2 : Graph) (mode : MatchMode) (wd : Bool) :
    ((∃ e, mkMatcher g1 g2 mode wd = Except.error e) ↔
      ((wd = true ∧ (g1.directed = false ∨ g2.directed = false)) ∨
        (mode ≠ MatchMode.full ∧ g1.nodes.length < g2.nodes.length))) ∧
    (∀ M, mkMatcher g1 g2 mode wd = Except.ok M →
      M.run = enumerateMappings g1 g2 mode ∧
      (M.run = [] ↔ findMapping g1 g2 mode = none)) := by
  refine ⟨mkMatcher_error_iff g1 g2 mode wd, ?_⟩
  intro M h
  have hrun := (mkMatcher_ok h).2
  refine ⟨hrun, ?_⟩
  rw [hrun]
  unfold findMapping
  constructor
  · intro he
    rw [he]
    rfl
  · intro he
    cases hl : enumerateMappings g1 g2 mode with
    | nil => rfl
    | cons x xs =>
      rw [hl] at he
      simp at he

/-- Witness for C9: a rejected oversized-pattern configuration and an
accepted full-mode configuration. -/
theorem C9_config_errors_witness :
    (∃ e, mkMatcher oneG dblE MatchMode.subNonInduced false
      = Except.error e) ∧
    (Matcher.mk oneG oneG MatchMode.full).run
      = enumerateMappings oneG oneG MatchMode.full :=
  ⟨(C9_config_errors oneG dblE MatchMode.subNonInduced false).1.mpr
      (Or.inr ⟨by decide, by decide⟩),
   ((C9_config_errors oneG oneG MatchMode.full false).2
      (Matcher.mk oneG oneG MatchMode.full) rfl).1⟩

/-- C10: after the boolean existence query answers true, the matcher
retains the witnessing mapping as observable state: it is exactly the
first enumerated match, it covers every node of the matched (smaller)
graph exactly once, and it maps distinct Graph₁ nodes (a dictionary from
Graph₁ nodes to Graph₂ nodes). -/
theorem C10_mapping_retained (g1 g2 : Graph) (mode : MatchMode)
    (hW1 : GraphWF g1) (hW2 : GraphWF g2)
    (h : (matcherQuery g1 g2 mode).1 = true) :
    findMapping g1 g2 mode = some (matcherQuery g1 g2 mode).2 ∧
    ((matcherQuery g1 g2 mode).2.map Prod.snd).Perm g2.nodes ∧
    ((matcherQuery g1 g2 mode).2.map Prod.fst).Nodup := by
  unfold matcherQuery at h ⊢
  cases hf : findMapping g1 g2 mode with
  | none =>
    rw [hf] at h
    simp at h
  | some mp =>
    simp only
    have hmem : mp ∈ enumerateMappings g1 g2 mode := by
      unfold findMapping at hf
      exact mem_of_head? hf
    have hs := enumerateMappings_sound hW1 hW2 hmem
    exact ⟨by trivial, hs.1, hs.2.1⟩

/-- Witness for C10 at the double-edge pair. -/
theorem C10_mapping_retained_witness :
    findMapping dblE dblE MatchMode.full
      = some (matcherQuery dblE dblE MatchMode.full).2 ∧
    ((matcherQuery dblE dblE MatchMode.full).2.map Prod.snd).Perm dblE.nodes ∧
    ((matcherQuery dblE dblE MatchMode.full).2.map Prod.fst).Nodup :=
  C10_mapping_retained dblE dblE MatchMode.full (by decide) (by decide)
    (by decide)
